import Mathlib

/-! ArduinoEncoder: rotary encoder counters and TM1638 panel rendering

A shallow embedding of `Encoder.h`, `Encoder.cpp`, `DisplayController.h` and
`DisplayController.cpp`, followed by the properties proved about them.

Conventions of the embedding

* `long` is the 32-bit signed integer of the Arduino targets and
  `unsigned long` the 32-bit unsigned one.  A field of type `long` is an `Int`;
  every arithmetic result stored in it goes through `wrapLong`, the two's
  complement wrap-around the target's adder produces.
* The platform calls `digitalRead` and `millis` are inputs: one `Platform`
  value holds what they return at the instant of one call.
* A member function that mutates the object is a function from the object to
  the mutated object.
-/

namespace ArduinoEncoder

/-! ## Machine integers -/

/-- Smallest value of a 32-bit `long`. -/
def LONG_MIN : Int := -2147483648

/-- Largest value of a 32-bit `long`. -/
def LONG_MAX : Int := 2147483647

/-- Largest value of a 32-bit `unsigned long`. -/
def ULONG_MAX : Nat := 4294967295

/-- Two's complement reduction of an integer to the range of a 32-bit `long`. -/
def wrapLong (x : Int) : Int := (x + 2147483648) % 4294967296 - 2147483648

/-! ## Platform boundary -/

/-- Modelled from the spec: the constant `HIGH` of `Arduino.h`, the level
`High` that `readDigitalPin` reports; its value on every Arduino core is 1. -/
def HIGH : Int := 1

/-- What the platform answers at the instant of one call: the level
`digitalRead` returns for each pin number, and the value of `millis()`. -/
structure Platform where
  digitalRead : Int → Int
  millis : Nat

/-- The tick count fits an `unsigned long`. -/
def Platform.WF (p : Platform) : Prop := p.millis ≤ ULONG_MAX

instance (p : Platform) : Decidable p.WF := by
  unfold Platform.WF; infer_instance

/-! ## Encoder (Encoder.h, Encoder.cpp) -/

/-- The data members of `class Encoder`. -/
structure Encoder where
  forward : Int
  backward : Int
  dir : Int
  lastPulse : Nat
  pinA : Int
  pinB : Int
  deriving DecidableEq, Repr

namespace Encoder

/-- Every member holds a value of its C++ type: `forward`, `backward` are
`long`, `dir` is `int8_t`, `lastPulse` is `unsigned long`. -/
def WF (e : Encoder) : Prop :=
  LONG_MIN ≤ e.forward ∧ e.forward ≤ LONG_MAX ∧
  LONG_MIN ≤ e.backward ∧ e.backward ≤ LONG_MAX ∧
  -128 ≤ e.dir ∧ e.dir ≤ 127 ∧
  e.lastPulse ≤ ULONG_MAX

instance (e : Encoder) : Decidable e.WF := by
  unfold WF; infer_instance

/-- `Encoder::Encoder(int a, int b)`: the members take their default
initialisers and the two pin numbers.  (The two `pinMode` calls configure the
platform and leave the object untouched.) -/
def new (a b : Int) : Encoder :=
  { forward := 0, backward := 0, dir := 0, lastPulse := 0, pinA := a, pinB := b }

/-- `void Encoder::handlePulseA()`. -/
def handlePulseA (e : Encoder) (p : Platform) : Encoder :=
  let e1 : Encoder :=
    if p.digitalRead e.pinB = HIGH then
      { e with forward := wrapLong (e.forward + 1), dir := 1 }
    else
      { e with backward := wrapLong (e.backward + 1), dir := -1 }
  { e1 with lastPulse := p.millis }

/-- `void Encoder::reset()`. -/
def reset (e : Encoder) : Encoder :=
  { e with forward := 0, backward := 0, dir := 0, lastPulse := 0 }

/-- `long Encoder::getValue(int mode) const`. -/
def getValue (e : Encoder) (mode : Int) : Int :=
  if mode = 0 then wrapLong (e.forward - e.backward)
  else if mode = 1 then e.forward
  else if mode = 2 then e.backward
  else 0

end Encoder

/-- One call of a member function of an `Encoder`, with the inputs it takes
from its caller or from the platform. -/
inductive Call where
  | handlePulseA (p : Platform)
  | reset
  | getValue (mode : Int)

namespace Encoder

/-- The object after one call; `getValue` is `const` and leaves it as it is. -/
def step (e : Encoder) : Call → Encoder
  | Call.handlePulseA p => e.handlePulseA p
  | Call.reset => e.reset
  | Call.getValue _ => e

/-- The object after a sequence of calls, first call first. -/
def run (e : Encoder) (cs : List Call) : Encoder := cs.foldl step e

/-- The object after a sequence of edges, first edge first. -/
def pulses (e : Encoder) (ps : List Platform) : Encoder := ps.foldl handlePulseA e

end Encoder

/-- Number of `handlePulseA` calls in a sequence of calls. -/
def pulseCount : List Call → Nat
  | [] => 0
  | Call.handlePulseA _ :: cs => pulseCount cs + 1
  | _ :: cs => pulseCount cs

/-- The values `millis()` returned during a sequence of calls, in order. -/
def ticks : List Call → List Nat
  | [] => []
  | Call.handlePulseA p :: cs => p.millis :: ticks cs
  | _ :: cs => ticks cs

/-- A platform instant at which every pin reads `HIGH` and the tick is `t`. -/
def pinsHigh (t : Nat) : Platform := { digitalRead := fun _ => HIGH, millis := t }

/-- A platform instant at which every pin reads 0 (`LOW`) and the tick is `t`. -/
def pinsLow (t : Nat) : Platform := { digitalRead := fun _ => 0, millis := t }

/-! ## C library: the one `snprintf` call of `renderValue`

The C library is not among the sources; `snprintf` and its conversions behave
as the C standard lays down.  A C `char` is a `Char`, a C string is the list of
characters in front of the first NUL of a buffer. -/

/-- The terminator of C strings. -/
def NUL : Char := Char.ofNat 0

/-- The conversion `%06ld` of `printf`: the decimal digits of the magnitude,
a `-` in front for a negative value, and (flag `0`, width 6) zeros between
sign and digits until the whole conversion has at least 6 characters. -/
def fmt06ld (v : Int) : List Char :=
  let digits : List Char := Nat.toDigits 10 v.natAbs
  let sign : List Char := if v < 0 then ['-'] else []
  sign ++ List.replicate (6 - (sign.length + digits.length)) '0' ++ digits

/-- The complete output of the format `"%c%c%06ld"` for its three arguments. -/
def fmtFrame (a b : Char) (v : Int) : List Char := a :: b :: fmt06ld v

/-- The bytes `snprintf(buf, size, ...)` stores in `buf` when the complete
output is `out`: at most `size - 1` characters of it, then the NUL. -/
def snprintf (size : Nat) (out : List Char) : List Char :=
  if size = 0 then [] else out.take (size - 1) ++ [NUL]

/-- The C string a `const char*` to the buffer denotes. -/
def cstr (buf : List Char) : List Char := buf.takeWhile (fun c => c != NUL)

/-! ## Display device boundary -/

/-- One operation requested from the TM1638 driver object. -/
inductive DeviceOp where
  | displayBegin
  | reset
  | brightness (level : Nat)
  | displayText (text : List Char)
  | readButtons
  deriving DecidableEq, Repr

/-- Modelled from the spec: the `TM1638plus` driver object of the vendor
library (not among the sources), a device known only by its operations:
power-on, reset, set brightness, write text frame and read button bitmask.
It is the pin assignment it was constructed with, the operations it has
received so far, oldest first, and the bitmask the hardware reports. -/
structure TM1638plus where
  stb : Nat
  clk : Nat
  dio : Nat
  highFreq : Bool
  log : List DeviceOp
  buttons : Nat
  deriving DecidableEq, Repr

namespace TM1638plus

/-- The driver object records one more operation. -/
def record (tm : TM1638plus) (op : DeviceOp) : TM1638plus :=
  { tm with log := tm.log ++ [op] }

/-- The call `tm.displayBegin()`. -/
def displayBegin (tm : TM1638plus) : TM1638plus := tm.record DeviceOp.displayBegin

/-- The call `tm.reset()`. -/
def reset (tm : TM1638plus) : TM1638plus := tm.record DeviceOp.reset

/-- The call `tm.brightness(level)`. -/
def brightness (tm : TM1638plus) (level : Nat) : TM1638plus :=
  tm.record (DeviceOp.brightness level)

/-- The call `tm.displayText(buf)`: the device is handed the C string in `buf`. -/
def displayText (tm : TM1638plus) (buf : List Char) : TM1638plus :=
  tm.record (DeviceOp.displayText (cstr buf))

/-- The call `tm.readButtons()`: the bitmask and the driver object afterwards. -/
def readButtons (tm : TM1638plus) : Nat × TM1638plus :=
  (tm.buttons, tm.record DeviceOp.readButtons)

end TM1638plus

/-! ## DisplayController (DisplayController.h, DisplayController.cpp) -/

/-- The data members of `class DisplayController`. -/
structure DisplayController where
  tm : TM1638plus
  idChar : Char
  deriving DecidableEq, Repr

namespace DisplayController

/-- The constructor `DisplayController::DisplayController(stb, clk, dio, id, high_freq)`. -/
def new (stb clk dio : Nat) (id : Char) (high_freq : Bool) : DisplayController :=
  { tm := { stb := stb, clk := clk, dio := dio, highFreq := high_freq, log := [], buttons := 0 },
    idChar := id }

/-- `void DisplayController::begin()`. -/
def begin (d : DisplayController) : DisplayController :=
  { d with tm := ((d.tm.displayBegin).reset).brightness 2 }

/-- The mode character the first three lines of `renderValue` choose. -/
def modeChar (mode : Int) : Char :=
  if mode = 0 then 'd'
  else if mode = 1 then 'f'
  else 'b'

/-- The contents of `buf` after the `snprintf` call of `renderValue`. -/
def renderBuf (d : DisplayController) (value : Int) (mode : Int) : List Char :=
  snprintf 9 (fmtFrame d.idChar (modeChar mode) value)

/-- `void DisplayController::renderValue(long value, int mode)`. -/
def renderValue (d : DisplayController) (value : Int) (mode : Int) : DisplayController :=
  { d with tm := d.tm.displayText (d.renderBuf value mode) }

/-- `uint8_t DisplayController::readButtons()`. -/
def readButtons (d : DisplayController) : Nat × DisplayController :=
  ((d.tm.readButtons).1, { d with tm := (d.tm.readButtons).2 })

/-- `void DisplayController::reset()`. -/
def reset (d : DisplayController) : DisplayController :=
  { d with tm := d.tm.reset }

/-- The text of the most recent `displayText` the device received, if any. -/
def lastText (d : DisplayController) : Option (List Char) :=
  match d.tm.log.getLast? with
  | some (DeviceOp.displayText t) => some t
  | _ => none

end DisplayController

/-! ## The frame as the specification words it -/

/-- Mode character of the specification: 0 is `d`, 1 is `f`, 2 is `b`. -/
def specModeChar (mode : Int) : Option Char :=
  if mode = 0 then some 'd'
  else if mode = 1 then some 'f'
  else if mode = 2 then some 'b'
  else none

/-- The 6-character field of the specification: for a value that is not
negative its decimal digits left-padded with `0` to 6 digits, for a negative
one a `-` and the digits of its magnitude left-padded with `0` to 5. -/
def specField (v : Int) : List Char :=
  if 0 ≤ v then List.leftpad 6 '0' (Nat.toDigits 10 v.toNat)
  else '-' :: List.leftpad 5 '0' (Nat.toDigits 10 (-v).toNat)

/-- The plain signed decimal of a value, as the specification means it: a `-`
for a negative value, then the decimal digits of the magnitude, no padding. -/
def signedDecimal (v : Int) : List Char :=
  (if v < 0 then ['-'] else []) ++ Nat.toDigits 10 v.natAbs

/-- The value of a decimal digit character. -/
def digitValue (c : Char) : Nat := c.toNat - 48

/-- A run of decimal digits read as a number, most significant digit first. -/
def readDecimal (cs : List Char) : Nat :=
  cs.foldl (fun acc c => 10 * acc + digitValue c) 0

/-- A field read as a signed decimal: a leading `-` negates what follows. -/
def readSignedDecimal (cs : List Char) : Int :=
  if cs.head? = some '-' then -((readDecimal cs.tail : Nat) : Int)
  else ((readDecimal cs : Nat) : Int)

/-! ## Quantities of a run of edges -/

/-- Number of the edges of a sequence at which pin `pin` read `HIGH`. -/
def highCount (pin : Int) : List Platform → Nat
  | [] => 0
  | p :: ps => (if p.digitalRead pin = HIGH then 1 else 0) + highCount pin ps

/-- What one call does to the pair (edges that saw pin `pin` at `HIGH` since
the last reset, other edges since the last reset): an edge adds one to its
side, a reset clears both, a reading changes nothing. -/
def countEdge (pin : Int) (fb : Nat × Nat) : Call → Nat × Nat
  | Call.handlePulseA p => if p.digitalRead pin = HIGH then (fb.1 + 1, fb.2) else (fb.1, fb.2 + 1)
  | Call.reset => (0, 0)
  | Call.getValue _ => fb

/-- After a sequence of calls: the number of edges since the last reset that
saw pin `pin` at `HIGH`, and the number of the other edges since then. -/
def edgesSinceReset (pin : Int) (cs : List Call) : Nat × Nat :=
  cs.foldl (countEdge pin) (0, 0)

/-- No counter is asked to count beyond the largest `long`: at every point of
the sequence fewer than 2^31 edges have seen pin `pin` at `HIGH` since the
last reset, and fewer than 2^31 edges have seen it at another level since the
last reset. -/
def NoCounterOverflow (pin : Int) (cs : List Call) : Prop :=
  ∀ pre ∈ cs.inits,
    (edgesSinceReset pin pre).1 < 2147483648 ∧ (edgesSinceReset pin pre).2 < 2147483648

instance (pin : Int) (cs : List Call) : Decidable (NoCounterOverflow pin cs) := by
  unfold NoCounterOverflow; infer_instance

/-- Direction and counters agree: `dir` is -1, 0 or +1, it is 0 exactly when
both counters are 0, +1 needs a forward edge and -1 a backward edge. -/
def Encoder.Consistent (e : Encoder) : Prop :=
  (e.dir = -1 ∨ e.dir = 0 ∨ e.dir = 1) ∧
  (e.dir = 0 ↔ e.forward = 0 ∧ e.backward = 0) ∧
  (e.dir = 1 → 1 ≤ e.forward) ∧
  (e.dir = -1 → 1 ≤ e.backward)

instance (e : Encoder) : Decidable e.Consistent := by
  unfold Encoder.Consistent; infer_instance

/-! ## Concrete objects used as inputs -/

/-- An encoder whose forward counter holds the largest `long`. -/
def encForwardMax : Encoder :=
  { forward := 2147483647, backward := 0, dir := 1, lastPulse := 0, pinA := 2, pinB := 3 }

/-- An encoder whose forward counter has wrapped to the smallest `long` and
that has then counted one backward edge: the object after 2147483648 edges
with pin B at `HIGH` and one edge with pin B at 0. -/
def encWrapped : Encoder :=
  { forward := -2147483648, backward := 1, dir := -1, lastPulse := 9, pinA := 2, pinB := 3 }

/-- An encoder in the middle of a run: 5 forward and 8 backward edges. -/
def encSample : Encoder :=
  { forward := 5, backward := 8, dir := -1, lastPulse := 40, pinA := 2, pinB := 3 }

/-- A panel with identifier `L` that has received nothing yet. -/
def panelL : DisplayController := DisplayController.new 4 5 6 'L' false

/-- A panel with identifier `r` that has received nothing yet. -/
def panelR : DisplayController := DisplayController.new 7 8 9 'r' false

/-- A panel whose identifier is the NUL character. -/
def panelNul : DisplayController := DisplayController.new 4 5 6 NUL false

/-- Panel `L` after `begin()`, with all eight buttons held down. -/
def panelPressed : DisplayController :=
  { panelL.begin with tm := { panelL.begin.tm with buttons := 255 } }

/-! ## Auxiliary facts -/

theorem wrapLong_of_range (x : Int) (h1 : LONG_MIN ≤ x) (h2 : x ≤ LONG_MAX) :
    wrapLong x = x := by
  unfold wrapLong
  unfold LONG_MIN at h1
  unfold LONG_MAX at h2
  omega

theorem wrapLong_range (x : Int) : LONG_MIN ≤ wrapLong x ∧ wrapLong x ≤ LONG_MAX := by
  unfold wrapLong LONG_MIN LONG_MAX
  omega

theorem wrapLong_succ (x : Int) : wrapLong (wrapLong x + 1) = wrapLong (x + 1) := by
  unfold wrapLong
  omega

theorem wrapLong_add (x y : Int) : wrapLong (wrapLong x + y) = wrapLong (x + y) := by
  unfold wrapLong
  omega

theorem pulseCount_append (cs ds : List Call) :
    pulseCount (cs ++ ds) = pulseCount cs + pulseCount ds := by
  induction cs with
  | nil => simp [pulseCount]
  | cons c cs ih =>
    cases c <;> simp [pulseCount, ih]
    omega

theorem ticks_append (cs ds : List Call) : ticks (cs ++ ds) = ticks cs ++ ticks ds := by
  induction cs with
  | nil => simp [ticks]
  | cons c cs ih =>
    cases c <;> simp [ticks, ih]

namespace Encoder

theorem run_nil (e : Encoder) : e.run [] = e := rfl

theorem run_cons (e : Encoder) (c : Call) (cs : List Call) :
    e.run (c :: cs) = (e.step c).run cs := rfl

theorem run_append (e : Encoder) (cs ds : List Call) :
    e.run (cs ++ ds) = (e.run cs).run ds := by
  unfold run
  rw [List.foldl_append]

theorem handlePulseA_pinB (e : Encoder) (p : Platform) : (e.handlePulseA p).pinB = e.pinB := by
  unfold handlePulseA
  split <;> rfl

theorem handlePulseA_forward (e : Encoder) (p : Platform) :
    (e.handlePulseA p).forward =
      if p.digitalRead e.pinB = HIGH then wrapLong (e.forward + 1) else e.forward := by
  unfold handlePulseA
  split <;> rfl

theorem handlePulseA_backward (e : Encoder) (p : Platform) :
    (e.handlePulseA p).backward =
      if p.digitalRead e.pinB = HIGH then e.backward else wrapLong (e.backward + 1) := by
  unfold handlePulseA
  split <;> rfl

theorem handlePulseA_lastPulse (e : Encoder) (p : Platform) :
    (e.handlePulseA p).lastPulse = p.millis := rfl

/-- While both counters are non-negative and their sum is below the largest
`long`, an edge wraps neither of them: both stay non-negative, neither gets
smaller, and their sum grows by one. -/
theorem handlePulseA_no_wrap (e : Encoder) (p : Platform) (hf : 0 ≤ e.forward)
    (hb : 0 ≤ e.backward) (hs : e.forward + e.backward < LONG_MAX) :
    e.forward ≤ (e.handlePulseA p).forward ∧ e.backward ≤ (e.handlePulseA p).backward ∧
    (e.handlePulseA p).forward + (e.handlePulseA p).backward = e.forward + e.backward + 1 := by
  unfold LONG_MAX at hs
  rw [handlePulseA_forward, handlePulseA_backward]
  by_cases hp : p.digitalRead e.pinB = HIGH
  · rw [if_pos hp, if_pos hp, wrapLong_of_range (e.forward + 1)]
    · omega
    · unfold LONG_MIN; omega
    · unfold LONG_MAX; omega
  · rw [if_neg hp, if_neg hp, wrapLong_of_range (e.backward + 1)]
    · omega
    · unfold LONG_MIN; omega
    · unfold LONG_MAX; omega

/-- Counters that start non-negative with sum at most `k` stay non-negative
with sum at most `k` plus the number of edges, as long as that bound stays
below 2^31. -/
theorem run_counters_bounded (cs : List Call) :
    ∀ (e : Encoder) (k : Nat), 0 ≤ e.forward → 0 ≤ e.backward →
      e.forward + e.backward ≤ (k : Int) → k + pulseCount cs < 2147483648 →
      0 ≤ (e.run cs).forward ∧ 0 ≤ (e.run cs).backward ∧
      (e.run cs).forward + (e.run cs).backward ≤ ((k + pulseCount cs : Nat) : Int) := by
  induction cs with
  | nil =>
    intro e k hf hb hs _
    simp only [run_nil, pulseCount]
    exact ⟨hf, hb, by simpa using hs⟩
  | cons c cs ih =>
    intro e k hf hb hs hk
    rw [run_cons]
    cases c with
    | handlePulseA p =>
      simp only [pulseCount] at hk ⊢
      have hlt : e.forward + e.backward < LONG_MAX := by unfold LONG_MAX; omega
      obtain ⟨h1, h2, h3⟩ := handlePulseA_no_wrap e p hf hb hlt
      have := ih (e.handlePulseA p) (k + 1) (by omega) (by omega) (by push_cast; omega)
        (by omega)
      simp only [step]
      refine ⟨this.1, this.2.1, ?_⟩
      have h4 := this.2.2
      push_cast at h4 ⊢
      omega
    | reset =>
      simp only [pulseCount] at hk ⊢
      exact ih e.reset k (by simp [step, reset]) (by simp [step, reset])
        (by simp [step, reset]) hk
    | getValue m =>
      simp only [pulseCount] at hk ⊢
      exact ih e k hf hb hs hk

/-- After a run of `n + 1` edges that all see pin B at `HIGH`, at tick `t`. -/
theorem run_replicate_high (t : Nat) (n : Nat) :
    ∀ e : Encoder, e.run (List.replicate (n + 1) (Call.handlePulseA (pinsHigh t))) =
      { e with forward := wrapLong (e.forward + ((n + 1 : Nat) : Int)), dir := 1,
               lastPulse := t } := by
  induction n with
  | zero =>
    intro e
    simp [run, step, handlePulseA, pinsHigh]
  | succ n ih =>
    intro e
    rw [List.replicate_succ, run_cons, ih]
    simp only [step, handlePulseA, pinsHigh, if_true]
    rw [wrapLong_add]
    congr 2
    push_cast
    omega

/-- The last-pulse timestamp after a run is the one before it, or 0, or one of
the ticks read during the run. -/
theorem run_lastPulse_cases (cs : List Call) :
    ∀ e : Encoder, (e.run cs).lastPulse = e.lastPulse ∨ (e.run cs).lastPulse = 0 ∨
      (e.run cs).lastPulse ∈ ticks cs := by
  induction cs with
  | nil => intro e; exact Or.inl rfl
  | cons c cs ih =>
    intro e
    rw [run_cons]
    cases c with
    | handlePulseA p =>
      rcases ih (e.step (Call.handlePulseA p)) with h | h | h
      · right; right
        rw [h]
        simp [step, handlePulseA_lastPulse, ticks]
      · exact Or.inr (Or.inl h)
      · right; right
        simp only [ticks, List.mem_cons]
        exact Or.inr h
    | reset =>
      rcases ih (e.step Call.reset) with h | h | h
      · right; left
        rw [h]
        rfl
      · exact Or.inr (Or.inl h)
      · exact Or.inr (Or.inr (by simpa [ticks] using h))
    | getValue m =>
      rcases ih (e.step (Call.getValue m)) with h | h | h
      · exact Or.inl h
      · exact Or.inr (Or.inl h)
      · exact Or.inr (Or.inr (by simpa [ticks] using h))

/-- While both counters are non-negative and their sum is below the largest
`long`, the state after an edge has direction and counters in agreement. -/
theorem handlePulseA_consistent (e : Encoder) (p : Platform) (hf : 0 ≤ e.forward)
    (hb : 0 ≤ e.backward) (hs : e.forward + e.backward < LONG_MAX) :
    (e.handlePulseA p).Consistent := by
  unfold LONG_MAX at hs
  by_cases hp : p.digitalRead e.pinB = HIGH
  · have hw : wrapLong (e.forward + 1) = e.forward + 1 :=
      wrapLong_of_range _ (by unfold LONG_MIN; omega) (by unfold LONG_MAX; omega)
    have hd : (e.handlePulseA p).dir = 1 := by simp only [handlePulseA, if_pos hp]
    have hfw : (e.handlePulseA p).forward = e.forward + 1 := by
      rw [handlePulseA_forward, if_pos hp, hw]
    refine ⟨Or.inr (Or.inr hd), ?_, ?_, ?_⟩
    · rw [hd, hfw]
      constructor
      · intro h; exact absurd h (by decide)
      · intro h; omega
    · intro _; omega
    · rw [hd]; intro h; exact absurd h (by decide)
  · have hw : wrapLong (e.backward + 1) = e.backward + 1 :=
      wrapLong_of_range _ (by unfold LONG_MIN; omega) (by unfold LONG_MAX; omega)
    have hd : (e.handlePulseA p).dir = -1 := by simp only [handlePulseA, if_neg hp]
    have hbw : (e.handlePulseA p).backward = e.backward + 1 := by
      rw [handlePulseA_backward, if_neg hp, hw]
    refine ⟨Or.inl hd, ?_, ?_, ?_⟩
    · rw [hd, hbw]
      constructor
      · intro h; exact absurd h (by decide)
      · intro h; omega
    · rw [hd]; intro h; exact absurd h (by decide)
    · intro _; omega

/-- Agreement of direction and counters is kept by every sequence of calls
whose edges do not take the sum of the counters to 2^31. -/
theorem run_consistent (cs : List Call) :
    ∀ (e : Encoder) (k : Nat), 0 ≤ e.forward → 0 ≤ e.backward →
      e.forward + e.backward ≤ (k : Int) → e.Consistent →
      k + pulseCount cs < 2147483648 → (e.run cs).Consistent := by
  induction cs with
  | nil =>
    intro e k _ _ _ hc _
    exact hc
  | cons c cs ih =>
    intro e k hf hb hs hc hk
    rw [run_cons]
    cases c with
    | handlePulseA p =>
      simp only [pulseCount] at hk
      have hlt : e.forward + e.backward < LONG_MAX := by unfold LONG_MAX; omega
      obtain ⟨h1, h2, h3⟩ := handlePulseA_no_wrap e p hf hb hlt
      exact ih (e.handlePulseA p) (k + 1) (by omega) (by omega) (by push_cast; omega)
        (handlePulseA_consistent e p hf hb hlt) (by omega)
    | reset =>
      simp only [pulseCount] at hk
      exact ih e.reset k (by simp [reset]) (by simp [reset]) (by simp [reset])
        (by simp [Consistent, reset]) hk
    | getValue m =>
      simp only [pulseCount] at hk
      exact ih e k hf hb hs hc hk

theorem pulses_cons (e : Encoder) (p : Platform) (ps : List Platform) :
    e.pulses (p :: ps) = (e.handlePulseA p).pulses ps := rfl

/-- Starting from non-negative counters, a sequence of edges that does not
take their sum to 2^31 adds to `forward` the number of edges that saw pin B at
`HIGH` and to `backward` the number of the other edges. -/
theorem pulses_counts (ps : List Platform) :
    ∀ e : Encoder, 0 ≤ e.forward → 0 ≤ e.backward →
      e.forward + e.backward + (ps.length : Int) < 2147483648 →
      (e.pulses ps).forward = e.forward + (highCount e.pinB ps : Int) ∧
      (e.pulses ps).backward =
        e.backward + ((ps.length : Int) - (highCount e.pinB ps : Int)) := by
  induction ps with
  | nil =>
    intro e _ _ _
    simp [pulses, highCount]
  | cons p ps ih =>
    intro e hf hb hs
    simp only [List.length_cons] at hs
    push_cast at hs
    have hlt : e.forward + e.backward < LONG_MAX := by unfold LONG_MAX; omega
    obtain ⟨h1, h2, h3⟩ := handlePulseA_no_wrap e p hf hb hlt
    obtain ⟨ihf, ihb⟩ := ih (e.handlePulseA p) (by omega) (by omega) (by omega)
    rw [pulses_cons, ihf, ihb, handlePulseA_pinB, handlePulseA_forward, handlePulseA_backward]
    simp only [highCount, List.length_cons]
    by_cases hp : p.digitalRead e.pinB = HIGH
    · rw [if_pos hp, if_pos hp, if_pos hp,
        wrapLong_of_range _ (by unfold LONG_MIN; omega) (by unfold LONG_MAX; omega)]
      push_cast
      omega
    · rw [if_neg hp, if_neg hp, if_neg hp,
        wrapLong_of_range _ (by unfold LONG_MIN; omega) (by unfold LONG_MAX; omega)]
      push_cast
      omega

theorem run_concat (e : Encoder) (cs : List Call) (c : Call) :
    e.run (cs ++ [c]) = (e.run cs).step c := by
  rw [run_append]
  rfl

theorem step_pinB (e : Encoder) (c : Call) : (e.step c).pinB = e.pinB := by
  cases c with
  | handlePulseA p => exact handlePulseA_pinB e p
  | reset => rfl
  | getValue m => rfl

theorem run_pinB (cs : List Call) : ∀ e : Encoder, (e.run cs).pinB = e.pinB := by
  induction cs with
  | nil => intro e; rfl
  | cons c cs ih =>
    intro e
    rw [run_cons, ih, step_pinB]

end Encoder

theorem edgesSinceReset_concat (pin : Int) (cs : List Call) (c : Call) :
    edgesSinceReset pin (cs ++ [c]) = countEdge pin (edgesSinceReset pin cs) c := by
  simp [edgesSinceReset, List.foldl_append]

theorem edgesSinceReset_append (pin : Int) (cs ds : List Call) :
    edgesSinceReset pin (cs ++ ds) = ds.foldl (countEdge pin) (edgesSinceReset pin cs) := by
  simp [edgesSinceReset, List.foldl_append]

theorem NoCounterOverflow.of_isPrefix {pin : Int} {pre cs : List Call}
    (h : NoCounterOverflow pin cs) (hp : pre <+: cs) : NoCounterOverflow pin pre := by
  intro q hq
  exact h q ((List.mem_inits q cs).mpr (((List.mem_inits q pre).mp hq).trans hp))

theorem NoCounterOverflow.self_bound {pin : Int} {cs : List Call}
    (h : NoCounterOverflow pin cs) :
    (edgesSinceReset pin cs).1 < 2147483648 ∧ (edgesSinceReset pin cs).2 < 2147483648 :=
  h cs ((List.mem_inits cs cs).mpr (List.prefix_refl cs))

/-- A call other than a reset makes neither count of edges smaller. -/
theorem countEdge_mono (pin : Int) (fb : Nat × Nat) (c : Call) (hc : c ≠ Call.reset) :
    fb.1 ≤ (countEdge pin fb c).1 ∧ fb.2 ≤ (countEdge pin fb c).2 := by
  cases c with
  | handlePulseA p =>
    simp only [countEdge]
    split_ifs <;> simp
  | reset => exact absurd rfl hc
  | getValue m => exact ⟨le_refl _, le_refl _⟩

/-- As long as no counter is asked to count beyond the largest `long`, the two
counters of the encoder are the two counts of edges since the last reset. -/
theorem run_eq_edgesSinceReset (a b : Int) (cs : List Call) (h : NoCounterOverflow b cs) :
    ((Encoder.new a b).run cs).forward = ((edgesSinceReset b cs).1 : Int) ∧
    ((Encoder.new a b).run cs).backward = ((edgesSinceReset b cs).2 : Int) := by
  induction cs using List.reverseRecOn with
  | nil => exact ⟨rfl, rfl⟩
  | append_singleton l c ih =>
    obtain ⟨ihf, ihb⟩ := ih (h.of_isPrefix (List.prefix_append l [c]))
    have hnew := h.self_bound
    rw [edgesSinceReset_concat] at hnew
    rw [Encoder.run_concat, edgesSinceReset_concat]
    cases c with
    | handlePulseA p =>
      have hpin : ((Encoder.new a b).run l).pinB = b := Encoder.run_pinB l (Encoder.new a b)
      simp only [Encoder.step, Encoder.handlePulseA_forward, Encoder.handlePulseA_backward,
        hpin, countEdge, ihf, ihb] at hnew ⊢
      by_cases hp : p.digitalRead b = HIGH
      · simp only [if_pos hp] at hnew ⊢
        refine ⟨?_, trivial⟩
        rw [wrapLong_of_range _ (by unfold LONG_MIN; omega) (by unfold LONG_MAX; omega)]
        push_cast
        rfl
      · simp only [if_neg hp] at hnew ⊢
        refine ⟨trivial, ?_⟩
        rw [wrapLong_of_range _ (by unfold LONG_MIN; omega) (by unfold LONG_MAX; omega)]
        push_cast
        rfl
    | reset => exact ⟨rfl, rfl⟩
    | getValue m => exact ⟨ihf, ihb⟩

theorem edgesSinceReset_replicate_high (pin : Int) (t k : Nat) :
    edgesSinceReset pin (List.replicate k (Call.handlePulseA (pinsHigh t))) = (k, 0) := by
  induction k with
  | zero => rfl
  | succ k ih =>
    rw [List.replicate_succ', edgesSinceReset_concat, ih]
    simp [countEdge, pinsHigh]

theorem pulseCount_replicate_high (t k : Nat) :
    pulseCount (List.replicate k (Call.handlePulseA (pinsHigh t))) = k := by
  induction k with
  | zero => rfl
  | succ k ih => simp [List.replicate_succ, pulseCount, ih]

/-- A run that a bound on the total number of edges would leave out: 2^31 - 1
edges with pin B at `HIGH`, a reset, one more such edge.  It has 2^31 edges,
and no counter is asked to count beyond the largest `long` on it. -/
theorem noCounterOverflow_of_reset_in_time :
    NoCounterOverflow 3 (List.replicate 2147483647 (Call.handlePulseA (pinsHigh 0)) ++
      [Call.reset, Call.handlePulseA (pinsHigh 0)]) ∧
    pulseCount (List.replicate 2147483647 (Call.handlePulseA (pinsHigh 0)) ++
      [Call.reset, Call.handlePulseA (pinsHigh 0)]) = 2147483648 := by
  constructor
  · intro pre hpre
    rw [List.mem_inits] at hpre
    rcases List.prefix_or_prefix_of_prefix hpre (List.prefix_append _ _) with h | h
    · have hlen : pre.length ≤ 2147483647 := by
        have hle := h.length_le
        rw [List.length_replicate] at hle
        exact hle
      have hrep : pre = List.replicate pre.length (Call.handlePulseA (pinsHigh 0)) :=
        List.eq_replicate_of_mem (fun c hc => List.eq_of_mem_replicate (h.mem hc))
      rw [hrep, edgesSinceReset_replicate_high]
      exact ⟨by show pre.length < 2147483648; omega, by show 0 < 2147483648; omega⟩
    · obtain ⟨t, rfl⟩ := h
      rw [List.prefix_append_right_inj] at hpre
      have hbase := edgesSinceReset_replicate_high 3 0 2147483647
      rw [edgesSinceReset_append, hbase]
      rcases List.prefix_cons_iff.mp hpre with ht | ⟨t1, ht, hpre1⟩
      · rw [ht]
        simp [countEdge, pinsHigh]
      · rcases List.prefix_cons_iff.mp hpre1 with ht1 | ⟨t2, ht1, hpre2⟩
        · rw [ht, ht1]
          simp [countEdge, pinsHigh]
        · have ht2 : t2 = [] := List.eq_nil_of_prefix_nil hpre2
          rw [ht, ht1, ht2]
          simp [countEdge, pinsHigh]
  · rw [pulseCount_append, pulseCount_replicate_high]
    simp [pulseCount]

theorem highCount_le_length (pin : Int) (ps : List Platform) :
    highCount pin ps ≤ ps.length := by
  induction ps with
  | nil => simp [highCount]
  | cons p ps ih =>
    simp only [highCount, List.length_cons]
    split_ifs <;> omega

/-! ## Auxiliary facts about the rendered frame -/

theorem digitChar_ne_NUL (k : Nat) (hk : k < 10) : Nat.digitChar k ≠ NUL := by
  interval_cases k <;> decide

theorem toDigitsCore_ne_NUL (fuel : Nat) :
    ∀ (n : Nat) (acc : List Char), (∀ c ∈ acc, c ≠ NUL) →
      ∀ c ∈ Nat.toDigitsCore 10 fuel n acc, c ≠ NUL := by
  induction fuel with
  | zero =>
    intro n acc hacc c hc
    simp only [Nat.toDigitsCore] at hc
    exact hacc c hc
  | succ fuel ih =>
    intro n acc hacc c hc
    have hacc2 : ∀ x ∈ Nat.digitChar (n % 10) :: acc, x ≠ NUL := by
      intro x hx
      rcases List.mem_cons.mp hx with h | h
      · rw [h]; exact digitChar_ne_NUL _ (Nat.mod_lt _ (by decide))
      · exact hacc x h
    simp only [Nat.toDigitsCore] at hc
    split_ifs at hc
    · exact hacc2 c hc
    · exact ih _ _ hacc2 c hc

theorem toDigits_ne_NUL (n : Nat) : ∀ c ∈ Nat.toDigits 10 n, c ≠ NUL :=
  toDigitsCore_ne_NUL (n + 1) n [] (by simp)

theorem toDigits_length_pos (n : Nat) : 1 ≤ (Nat.toDigits 10 n).length := by
  unfold Nat.toDigits
  simp only [Nat.toDigitsCore]
  split_ifs
  · simp
  · rw [Nat.toDigitsCore_lens_eq]
    omega

theorem toDigits_length_le (n e : Nat) (he : 0 < e) (hn : n < 10 ^ e) :
    (Nat.toDigits 10 n).length ≤ e :=
  Nat.toDigitsCore_length 10 (by decide) (n + 1) n e hn he

theorem fmt06ld_ne_NUL (v : Int) : ∀ c ∈ fmt06ld v, c ≠ NUL := by
  intro c hc
  simp only [fmt06ld, List.mem_append] at hc
  rcases hc with (hc | hc) | hc
  · split_ifs at hc
    · rw [List.mem_singleton.mp hc]; decide
    · simp at hc
  · rw [(List.mem_replicate.mp hc).2]; decide
  · exact toDigits_ne_NUL _ c hc

theorem fmt06ld_length_ge (v : Int) : 6 ≤ (fmt06ld v).length := by
  simp only [fmt06ld, List.length_append, List.length_replicate]
  omega

/-- Within the range that fits the field, `%06ld` produces the 6-character
field of the specification. -/
theorem fmt06ld_eq_specField (v : Int) (hlo : -99999 ≤ v) (hhi : v ≤ 999999) :
    fmt06ld v = specField v ∧ (specField v).length = 6 := by
  by_cases hv : 0 ≤ v
  · have habs : v.natAbs = v.toNat := by omega
    have hlen := toDigits_length_le v.toNat 6 (by decide) (by norm_num; omega)
    have hnot : ¬ v < 0 := by omega
    simp only [fmt06ld, specField, if_pos hv, if_neg hnot, List.leftpad, habs,
      List.length_nil, List.nil_append, List.length_append, List.length_replicate]
    constructor
    · simp
    · omega
  · have hneg : v < 0 := by omega
    have habs : v.natAbs = (-v).toNat := by omega
    have hlen := toDigits_length_le (-v).toNat 5 (by decide) (by norm_num; omega)
    have hpad : 6 - (([] : List Char).length + 1 + (Nat.toDigits 10 (-v).toNat).length) =
        5 - (Nat.toDigits 10 (-v).toNat).length := by
      simp only [List.length_nil]
      omega
    simp only [fmt06ld, specField, if_neg hv, if_pos hneg, List.leftpad, habs,
      List.length_singleton, List.length_cons, List.length_append, List.length_replicate,
      List.singleton_append, List.cons_append, hpad]
    constructor
    · rw [List.nil_append]
    · omega

theorem cstr_append_NUL (l : List Char) (h : ∀ c ∈ l, c ≠ NUL) : cstr (l ++ [NUL]) = l := by
  unfold cstr
  induction l with
  | nil => simp [List.takeWhile]
  | cons a l ih =>
    have ha : a ≠ NUL := h a (by simp)
    have hl : ∀ c ∈ l, c ≠ NUL := fun c hc => h c (by simp [hc])
    simp only [List.cons_append, List.takeWhile_cons, bne_iff_ne, ne_eq, ha, not_false_eq_true,
      if_true]
    rw [ih hl]

theorem modeChar_ne_NUL (m : Int) : DisplayController.modeChar m ≠ NUL := by
  unfold DisplayController.modeChar
  split_ifs <;> decide

theorem fmtFrame_ne_NUL (a b : Char) (v : Int) (ha : a ≠ NUL) (hb : b ≠ NUL) :
    ∀ c ∈ fmtFrame a b v, c ≠ NUL := by
  intro c hc
  simp only [fmtFrame, List.mem_cons] at hc
  rcases hc with h | h | h
  · rw [h]; exact ha
  · rw [h]; exact hb
  · exact fmt06ld_ne_NUL v c h

/-- The buffer `renderValue` fills: the first 8 characters of the complete
output, then the NUL. -/
theorem renderBuf_eq (d : DisplayController) (v m : Int) :
    d.renderBuf v m =
      (fmtFrame d.idChar (DisplayController.modeChar m) v).take 8 ++ [NUL] := by
  simp [DisplayController.renderBuf, snprintf]

/-- With a panel identifier other than NUL the device is handed the first 8
characters of the complete output of the format. -/
theorem renderValue_log (d : DisplayController) (v m : Int) (hid : d.idChar ≠ NUL) :
    (d.renderValue v m).tm.log = d.tm.log ++
      [DeviceOp.displayText ((fmtFrame d.idChar (DisplayController.modeChar m) v).take 8)] := by
  simp only [DisplayController.renderValue, TM1638plus.displayText, TM1638plus.record,
    renderBuf_eq]
  rw [cstr_append_NUL]
  intro c hc
  exact fmtFrame_ne_NUL _ _ v hid (modeChar_ne_NUL m) c (List.mem_of_mem_take hc)

theorem fmtFrame_take_length (a b : Char) (v : Int) : ((fmtFrame a b v).take 8).length = 8 := by
  have := fmt06ld_length_ge v
  simp only [fmtFrame, List.length_take, List.length_cons]
  omega

/-! ## Auxiliary facts about overflowing values -/

/-- A number of at least `10 ^ k` has at least `k + 1` decimal digits. -/
theorem toDigitsCore_length_ge (fuel : Nat) :
    ∀ (n k : Nat), n < fuel → 10 ^ k ≤ n →
      k + 1 ≤ (Nat.toDigitsCore 10 fuel n []).length := by
  induction fuel with
  | zero => intro n k hn _; exact absurd hn (Nat.not_lt_zero _)
  | succ fuel ih =>
    intro n k hn hk
    simp only [Nat.toDigitsCore]
    split_ifs with h0
    · have hlt : n < 10 := by omega
      cases k with
      | zero => simp
      | succ k =>
        have : 10 ≤ 10 ^ (k + 1) := by
          calc 10 = 10 ^ 1 := by norm_num
            _ ≤ 10 ^ (k + 1) := Nat.pow_le_pow_right (by decide) (by omega)
        omega
    · rw [Nat.toDigitsCore_lens_eq]
      cases k with
      | zero => omega
      | succ k =>
        have hdiv : 10 ^ k ≤ n / 10 := by
          rw [Nat.le_div_iff_mul_le (by decide)]
          rw [pow_succ] at hk
          exact hk
        have := ih (n / 10) k (by omega) hdiv
        omega

theorem toDigits_length_ge (n k : Nat) (h : 10 ^ k ≤ n) :
    k + 1 ≤ (Nat.toDigits 10 n).length :=
  toDigitsCore_length_ge (n + 1) n k (Nat.lt_succ_self n) h

/-- A value that needs more than the 6 characters of the field is converted
without padding: the conversion is the plain signed decimal. -/
theorem fmt06ld_overflow (v : Int) (hv : 1000000 ≤ v ∨ v ≤ -100000) :
    fmt06ld v = signedDecimal v := by
  rcases hv with hv | hv
  · have hlen := toDigits_length_ge v.natAbs 6 (by norm_num; omega)
    have hnot : ¬ v < 0 := by omega
    simp only [fmt06ld, signedDecimal, if_neg hnot, List.length_nil, List.nil_append]
    rw [show 6 - (0 + (Nat.toDigits 10 v.natAbs).length) = 0 by omega]
    rfl
  · have hlen := toDigits_length_ge v.natAbs 5 (by norm_num; omega)
    have hneg : v < 0 := by omega
    simp only [fmt06ld, signedDecimal, if_pos hneg, List.length_singleton]
    rw [show 6 - (1 + (Nat.toDigits 10 v.natAbs).length) = 0 by omega]
    rfl

/-- The text of the most recent frame, for a panel identifier other than NUL. -/
theorem renderValue_lastText (d : DisplayController) (v m : Int) (hid : d.idChar ≠ NUL) :
    (d.renderValue v m).lastText =
      some ((fmtFrame d.idChar (DisplayController.modeChar m) v).take 8) := by
  unfold DisplayController.lastText
  rw [renderValue_log d v m hid]
  simp

/-! ## Auxiliary facts about reading a field back -/

theorem digitValue_digitChar (k : Nat) (hk : k < 10) : digitValue (Nat.digitChar k) = k := by
  interval_cases k <;> decide

theorem digitChar_ne_minus (k : Nat) (hk : k < 10) : Nat.digitChar k ≠ '-' := by
  interval_cases k <;> decide

/-- The digits are put in front of the accumulator. -/
theorem toDigitsCore_acc (fuel : Nat) :
    ∀ (n : Nat) (acc : List Char),
      Nat.toDigitsCore 10 fuel n acc = Nat.toDigitsCore 10 fuel n [] ++ acc := by
  induction fuel with
  | zero => intro n acc; simp [Nat.toDigitsCore]
  | succ fuel ih =>
    intro n acc
    simp only [Nat.toDigitsCore]
    split_ifs
    · simp
    · rw [ih (n / 10) (Nat.digitChar (n % 10) :: acc), ih (n / 10) [Nat.digitChar (n % 10)]]
      simp

theorem toDigitsCore_ne_minus (fuel : Nat) :
    ∀ (n : Nat) (acc : List Char), (∀ c ∈ acc, c ≠ '-') →
      ∀ c ∈ Nat.toDigitsCore 10 fuel n acc, c ≠ '-' := by
  induction fuel with
  | zero =>
    intro n acc hacc c hc
    simp only [Nat.toDigitsCore] at hc
    exact hacc c hc
  | succ fuel ih =>
    intro n acc hacc c hc
    have hacc2 : ∀ x ∈ Nat.digitChar (n % 10) :: acc, x ≠ '-' := by
      intro x hx
      rcases List.mem_cons.mp hx with h | h
      · rw [h]; exact digitChar_ne_minus _ (Nat.mod_lt _ (by decide))
      · exact hacc x h
    simp only [Nat.toDigitsCore] at hc
    split_ifs at hc
    · exact hacc2 c hc
    · exact ih _ _ hacc2 c hc

theorem readDecimal_append_single (l : List Char) (c : Char) :
    readDecimal (l ++ [c]) = 10 * readDecimal l + digitValue c := by
  simp [readDecimal, List.foldl_append]

/-- Reading the digits of a number gives the number back. -/
theorem readDecimal_toDigitsCore (fuel : Nat) :
    ∀ n : Nat, n < fuel → readDecimal (Nat.toDigitsCore 10 fuel n []) = n := by
  induction fuel with
  | zero => intro n hn; exact absurd hn (Nat.not_lt_zero _)
  | succ fuel ih =>
    intro n hn
    simp only [Nat.toDigitsCore]
    have hd := digitValue_digitChar (n % 10) (Nat.mod_lt _ (by decide))
    split_ifs with h0
    · simp only [readDecimal, List.foldl_cons, List.foldl_nil, hd]
      omega
    · rw [toDigitsCore_acc, readDecimal_append_single, ih (n / 10) (by omega), hd]
      omega

theorem readDecimal_toDigits (n : Nat) : readDecimal (Nat.toDigits 10 n) = n :=
  readDecimal_toDigitsCore (n + 1) n (Nat.lt_succ_self n)

/-- Leading zeros do not change what a run of digits reads as. -/
theorem readDecimal_zeros_append (k : Nat) (l : List Char) :
    readDecimal (List.replicate k '0' ++ l) = readDecimal l := by
  induction k with
  | zero => simp
  | succ k ih =>
    have h0 : digitValue '0' = 0 := by decide
    simp only [readDecimal, List.replicate_succ, List.cons_append, List.foldl_cons, h0] at ih ⊢
    exact ih

theorem head?_ne_of_all_ne (l : List Char) (x : Char) (h : ∀ c ∈ l, c ≠ x) :
    l.head? ≠ some x := by
  cases l with
  | nil => simp
  | cons a l =>
    simp only [List.head?_cons, ne_eq, Option.some.injEq]
    exact h a (by simp)

/-- Reading the conversion `%06ld` of a value as a signed decimal gives the
value back. -/
theorem readSignedDecimal_fmt06ld (v : Int) : readSignedDecimal (fmt06ld v) = v := by
  by_cases hv : v < 0
  · simp only [fmt06ld, if_pos hv, List.singleton_append, List.cons_append,
      readSignedDecimal, List.head?_cons, List.tail_cons, if_true, List.nil_append,
      readDecimal_zeros_append, readDecimal_toDigits]
    omega
  · have hne : (fmt06ld v).head? ≠ some '-' := by
      apply head?_ne_of_all_ne
      intro c hc
      simp only [fmt06ld, if_neg hv, List.nil_append, List.mem_append] at hc
      rcases hc with hc | hc
      · rw [(List.mem_replicate.mp hc).2]; decide
      · exact toDigitsCore_ne_minus _ _ [] (by simp) c hc
    unfold readSignedDecimal
    rw [if_neg hne]
    simp only [fmt06ld, if_neg hv, List.nil_append, readDecimal_zeros_append,
      readDecimal_toDigits]
    omega

theorem modeChar_injective (m1 m2 : Int) (h1 : m1 = 0 ∨ m1 = 1 ∨ m1 = 2)
    (h2 : m2 = 0 ∨ m2 = 1 ∨ m2 = 2)
    (h : DisplayController.modeChar m1 = DisplayController.modeChar m2) : m1 = m2 := by
  rcases h1 with h1 | h1 | h1 <;> rcases h2 with h2 | h2 | h2 <;> subst h1 <;> subst h2 <;>
    first
    | rfl
    | exact absurd h (by decide)

/-! ## Encoder: one edge, reading, reset -/

/-- C1 (as stated, refuted): in the state whose forward counter holds the
largest `long`, which is the state after 2147483647 edges with pin B at `HIGH`,
an edge with pin B at `HIGH` does not increase `forward` by 1; the stored
value is the smallest `long`. -/
theorem handlePulseA_forward_wraps :
    (Encoder.new 2 3).run (List.replicate 2147483647 (Call.handlePulseA (pinsHigh 0))) =
      encForwardMax ∧
    encForwardMax.WF ∧ (pinsHigh 5).digitalRead encForwardMax.pinB = HIGH ∧
    (encForwardMax.handlePulseA (pinsHigh 5)).forward = LONG_MIN ∧
    ¬ ((encForwardMax.handlePulseA (pinsHigh 5)).forward = encForwardMax.forward + 1) := by
  have h := Encoder.run_replicate_high 0 2147483646 (Encoder.new 2 3)
  rw [show 2147483646 + 1 = 2147483647 from rfl] at h
  rw [h]
  decide

/-- C1 (amended): in a state whose members hold values of their types and in
which the counter the edge is about to increment is below the largest `long`,
`handlePulseA` with pin B at `HIGH` increases `forward` by exactly 1, leaves
`backward` unchanged and sets `dir` to +1; with any other level on pin B it
increases `backward` by exactly 1, leaves `forward` unchanged and sets `dir`
to -1. -/
theorem handlePulseA_counts_edge (e : Encoder) (p : Platform) (hwf : e.WF)
    (hroom : if p.digitalRead e.pinB = HIGH then e.forward < LONG_MAX
      else e.backward < LONG_MAX) :
    if p.digitalRead e.pinB = HIGH then
      (e.handlePulseA p).forward = e.forward + 1 ∧
      (e.handlePulseA p).backward = e.backward ∧ (e.handlePulseA p).dir = 1
    else
      (e.handlePulseA p).backward = e.backward + 1 ∧
      (e.handlePulseA p).forward = e.forward ∧ (e.handlePulseA p).dir = -1 := by
  obtain ⟨hf1, _, hb1, _, _⟩ := hwf
  by_cases hp : p.digitalRead e.pinB = HIGH
  · rw [if_pos hp] at hroom
    rw [if_pos hp]
    simp only [Encoder.handlePulseA, if_pos hp]
    refine ⟨wrapLong_of_range _ ?_ ?_, trivial, trivial⟩
    · unfold LONG_MIN at *; omega
    · unfold LONG_MAX at *; omega
  · rw [if_neg hp] at hroom
    rw [if_neg hp]
    simp only [Encoder.handlePulseA, if_neg hp]
    refine ⟨wrapLong_of_range _ ?_ ?_, trivial, trivial⟩
    · unfold LONG_MIN at *; omega
    · unfold LONG_MAX at *; omega

/-- C1 (amended), at the sample encoder and an edge with pin B at `HIGH`. -/
theorem handlePulseA_counts_edge_witness :
    encSample.WF ∧
    (if (pinsHigh 41).digitalRead encSample.pinB = HIGH then encSample.forward < LONG_MAX
      else encSample.backward < LONG_MAX) ∧
    (if (pinsHigh 41).digitalRead encSample.pinB = HIGH then
      (encSample.handlePulseA (pinsHigh 41)).forward = encSample.forward + 1 ∧
      (encSample.handlePulseA (pinsHigh 41)).backward = encSample.backward ∧
      (encSample.handlePulseA (pinsHigh 41)).dir = 1
    else
      (encSample.handlePulseA (pinsHigh 41)).backward = encSample.backward + 1 ∧
      (encSample.handlePulseA (pinsHigh 41)).forward = encSample.forward ∧
      (encSample.handlePulseA (pinsHigh 41)).dir = -1) :=
  ⟨by decide, by decide,
    handlePulseA_counts_edge encSample (pinsHigh 41) (by decide) (by decide)⟩

/-- C2 (as stated, refuted): after 2147483648 edges with pin B at `HIGH` and
one edge with pin B at 0, `forward` is the smallest `long` and `backward` is 1;
the difference does not fit a `long`, and `getValue(0)` returns 2147483647
instead of -2147483649. -/
theorem getValue_difference_wraps :
    ((Encoder.new 2 3).run
        (List.replicate 2147483648 (Call.handlePulseA (pinsHigh 0)))).step
      (Call.handlePulseA (pinsLow 9)) = encWrapped ∧
    encWrapped.WF ∧ encWrapped.getValue 0 = 2147483647 ∧
    ¬ (encWrapped.getValue 0 = encWrapped.forward - encWrapped.backward) := by
  have h := Encoder.run_replicate_high 0 2147483647 (Encoder.new 2 3)
  rw [show 2147483647 + 1 = 2147483648 from rfl] at h
  rw [h]
  decide

/-- C2 (amended): in every state in which `forward - backward` lies in the
range of a `long`, `getValue(0)` equals `forward - backward`; in every state,
with no condition on the counters, `getValue(1)` equals `forward` and
`getValue(2)` equals `backward`. -/
theorem getValue_modes (e : Encoder) :
    (LONG_MIN ≤ e.forward - e.backward → e.forward - e.backward ≤ LONG_MAX →
      e.getValue 0 = e.forward - e.backward) ∧
    e.getValue 1 = e.forward ∧ e.getValue 2 = e.backward := by
  refine ⟨?_, ?_, ?_⟩
  · intro hlo hhi
    simp only [Encoder.getValue, if_true]
    exact wrapLong_of_range _ hlo hhi
  · simp [Encoder.getValue]
  · simp [Encoder.getValue]

/-- C2 (amended), mode 0 at the sample encoder, whose difference is negative,
and modes 1 and 2 at the encoder whose difference does not fit a `long`. -/
theorem getValue_modes_witness :
    (LONG_MIN ≤ encSample.forward - encSample.backward ∧
      encSample.forward - encSample.backward ≤ LONG_MAX) ∧
    encSample.getValue 0 = encSample.forward - encSample.backward ∧
    encSample.getValue 0 = -3 ∧
    ¬ (LONG_MIN ≤ encWrapped.forward - encWrapped.backward) ∧
    encWrapped.getValue 1 = encWrapped.forward ∧
    encWrapped.getValue 2 = encWrapped.backward :=
  ⟨by decide, (getValue_modes encSample).1 (by decide) (by decide), by decide, by decide,
    (getValue_modes encWrapped).2.1, (getValue_modes encWrapped).2.2⟩

/-- C3: for a mode selector other than 0, 1 and 2, negative ones included,
`getValue` returns 0 whatever the counters hold, and the call leaves the
object as it was; the function has no failure result. -/
theorem getValue_unknown_mode (e : Encoder) (n : Int) (h0 : n ≠ 0) (h1 : n ≠ 1)
    (h2 : n ≠ 2) : e.getValue n = 0 ∧ e.step (Call.getValue n) = e := by
  refine ⟨?_, rfl⟩
  simp [Encoder.getValue, h0, h1, h2]

/-- C3, at a negative selector and an encoder with wrapped counters. -/
theorem getValue_unknown_mode_witness :
    ((-7 : Int) ≠ 0 ∧ (-7 : Int) ≠ 1 ∧ (-7 : Int) ≠ 2) ∧
    (encWrapped.getValue (-7) = 0 ∧ encWrapped.step (Call.getValue (-7)) = encWrapped) :=
  ⟨by decide, getValue_unknown_mode encWrapped (-7) (by decide) (by decide) (by decide)⟩

/-- C4: whatever sequence of edges was applied to whatever state, after a
following `reset()` the members `forward`, `backward`, `dir` and `lastPulse`
are 0, and `getValue` returns 0 in the modes 0, 1 and 2. -/
theorem reset_after_pulses (e : Encoder) (ps : List Platform) :
    ((e.pulses ps).reset).forward = 0 ∧ ((e.pulses ps).reset).backward = 0 ∧
    ((e.pulses ps).reset).dir = 0 ∧ ((e.pulses ps).reset).lastPulse = 0 ∧
    ((e.pulses ps).reset).getValue 0 = 0 ∧ ((e.pulses ps).reset).getValue 1 = 0 ∧
    ((e.pulses ps).reset).getValue 2 = 0 := by
  refine ⟨rfl, rfl, rfl, rfl, ?_, ?_, ?_⟩
  · simp only [Encoder.getValue, Encoder.reset, if_true]
    decide
  · simp [Encoder.getValue, Encoder.reset]
  · simp [Encoder.getValue, Encoder.reset]

/-- C9: `reset()` is idempotent: a second `reset()` leaves the object a first
one produced unchanged, in every member. -/
theorem reset_idempotent (e : Encoder) :
    (e.reset).reset = e.reset ∧
    ((e.reset).reset).forward = (e.reset).forward ∧
    ((e.reset).reset).backward = (e.reset).backward ∧
    ((e.reset).reset).dir = (e.reset).dir ∧
    ((e.reset).reset).lastPulse = (e.reset).lastPulse ∧
    ((e.reset).reset).pinA = (e.reset).pinA ∧ ((e.reset).reset).pinB = (e.reset).pinB :=
  ⟨rfl, rfl, rfl, rfl, rfl, rfl, rfl⟩

/-! ## Encoder: sequences of calls -/

/-- C8 (as stated, refuted): the state reached from the constructed encoder by
2147483648 edges with pin B at `HIGH` has a negative `forward`, and the last of
these edges, a `handlePulseA` call, made `forward` smaller than it was. -/
theorem counters_wrap_after_2_pow_31_edges :
    ¬ (0 ≤ ((Encoder.new 2 3).run
        (List.replicate 2147483648 (Call.handlePulseA (pinsHigh 0)))).forward) ∧
    ¬ (((Encoder.new 2 3).run
        (List.replicate 2147483647 (Call.handlePulseA (pinsHigh 0)))).forward ≤
      (((Encoder.new 2 3).run
        (List.replicate 2147483647 (Call.handlePulseA (pinsHigh 0)))).step
          (Call.handlePulseA (pinsHigh 0))).forward) := by
  have h1 := Encoder.run_replicate_high 0 2147483647 (Encoder.new 2 3)
  have h2 := Encoder.run_replicate_high 0 2147483646 (Encoder.new 2 3)
  rw [show 2147483647 + 1 = 2147483648 from rfl] at h1
  rw [show 2147483646 + 1 = 2147483647 from rfl] at h2
  rw [h1, h2]
  decide

/-- C8 (amended): in every state reached from the constructed encoder by a
sequence of `handlePulseA`, `reset` and `getValue` calls on which no counter
is asked to count beyond the largest `long` (at every point fewer than 2^31
edges since the last reset saw pin B at `HIGH`, and fewer than 2^31 saw it
otherwise), `forward` and `backward` are non-negative, and no call of the
sequence other than a `reset` makes `forward` or `backward` smaller than it
was before that call. -/
theorem counters_nonneg_nondecreasing (a b : Int) (cs : List Call)
    (hn : NoCounterOverflow b cs) :
    0 ≤ ((Encoder.new a b).run cs).forward ∧ 0 ≤ ((Encoder.new a b).run cs).backward ∧
    ∀ (pre : List Call) (c : Call) (post : List Call), cs = pre ++ c :: post →
      c ≠ Call.reset →
      ((Encoder.new a b).run pre).forward ≤ (((Encoder.new a b).run pre).step c).forward ∧
      ((Encoder.new a b).run pre).backward ≤
        (((Encoder.new a b).run pre).step c).backward := by
  obtain ⟨hf, hb⟩ := run_eq_edgesSinceReset a b cs hn
  refine ⟨by rw [hf]; exact Int.ofNat_nonneg _, by rw [hb]; exact Int.ofNat_nonneg _, ?_⟩
  intro pre c post hcs hc
  have hpc : pre ++ [c] <+: cs := by
    rw [hcs]
    exact ⟨post, by simp⟩
  have hpre : pre <+: cs := (List.prefix_append pre [c]).trans hpc
  obtain ⟨hf1, hb1⟩ := run_eq_edgesSinceReset a b pre (hn.of_isPrefix hpre)
  obtain ⟨hf2, hb2⟩ := run_eq_edgesSinceReset a b (pre ++ [c]) (hn.of_isPrefix hpc)
  rw [Encoder.run_concat, edgesSinceReset_concat] at hf2 hb2
  obtain ⟨hm1, hm2⟩ := countEdge_mono b (edgesSinceReset b pre) c hc
  rw [hf1, hb1, hf2, hb2]
  exact ⟨Int.ofNat_le.mpr hm1, Int.ofNat_le.mpr hm2⟩

/-- C8 (amended), at a sequence of two edges, a reading, a reset and an edge,
split in front of its second edge; and at the run of 2^31 - 1 edges, a reset
and one more edge. -/
theorem counters_nonneg_nondecreasing_witness :
    NoCounterOverflow 3 [Call.handlePulseA (pinsHigh 3), Call.handlePulseA (pinsLow 4),
      Call.getValue 0, Call.reset, Call.handlePulseA (pinsLow 9)] ∧
    0 ≤ ((Encoder.new 2 3).run (List.replicate 2147483647 (Call.handlePulseA (pinsHigh 0)) ++
      [Call.reset, Call.handlePulseA (pinsHigh 0)])).forward ∧
    0 ≤ ((Encoder.new 2 3).run [Call.handlePulseA (pinsHigh 3),
      Call.handlePulseA (pinsLow 4), Call.getValue 0, Call.reset,
      Call.handlePulseA (pinsLow 9)]).forward ∧
    0 ≤ ((Encoder.new 2 3).run [Call.handlePulseA (pinsHigh 3),
      Call.handlePulseA (pinsLow 4), Call.getValue 0, Call.reset,
      Call.handlePulseA (pinsLow 9)]).backward ∧
    ((Encoder.new 2 3).run [Call.handlePulseA (pinsHigh 3)]).forward ≤
      (((Encoder.new 2 3).run [Call.handlePulseA (pinsHigh 3)]).step
        (Call.handlePulseA (pinsLow 4))).forward ∧
    ((Encoder.new 2 3).run [Call.handlePulseA (pinsHigh 3)]).backward ≤
      (((Encoder.new 2 3).run [Call.handlePulseA (pinsHigh 3)]).step
        (Call.handlePulseA (pinsLow 4))).backward :=
  ⟨by decide,
    (counters_nonneg_nondecreasing 2 3 _ noCounterOverflow_of_reset_in_time.1).1,
    (counters_nonneg_nondecreasing 2 3 [Call.handlePulseA (pinsHigh 3),
      Call.handlePulseA (pinsLow 4), Call.getValue 0, Call.reset,
      Call.handlePulseA (pinsLow 9)] (by decide)).1,
    (counters_nonneg_nondecreasing 2 3 [Call.handlePulseA (pinsHigh 3),
      Call.handlePulseA (pinsLow 4), Call.getValue 0, Call.reset,
      Call.handlePulseA (pinsLow 9)] (by decide)).2.1,
    (counters_nonneg_nondecreasing 2 3 [Call.handlePulseA (pinsHigh 3),
      Call.handlePulseA (pinsLow 4), Call.getValue 0, Call.reset,
      Call.handlePulseA (pinsLow 9)] (by decide)).2.2
      [Call.handlePulseA (pinsHigh 3)] (Call.handlePulseA (pinsLow 4))
      [Call.getValue 0, Call.reset, Call.handlePulseA (pinsLow 9)] rfl (by simp)⟩

/-- C10 (as stated, refuted): with the ticks 5 and then nothing else, which is
a non-decreasing tick source, the `reset()` after one edge takes `lastPulse`
from 5 down to 0. -/
theorem lastPulse_drops_at_reset :
    (ticks [Call.handlePulseA (pinsHigh 5), Call.reset]).Pairwise (fun x y => x ≤ y) ∧
    ((Encoder.new 2 3).run [Call.handlePulseA (pinsHigh 5)]).lastPulse = 5 ∧
    (((Encoder.new 2 3).run [Call.handlePulseA (pinsHigh 5)]).step Call.reset).lastPulse = 0 ∧
    ¬ (((Encoder.new 2 3).run [Call.handlePulseA (pinsHigh 5)]).lastPulse ≤
      (((Encoder.new 2 3).run [Call.handlePulseA (pinsHigh 5)]).step Call.reset).lastPulse) := by
  refine ⟨?_, ?_, ?_, ?_⟩
  · simp [ticks]
  · decide
  · decide
  · decide

/-- C10 (amended): for every sequence of `handlePulseA`, `reset` and `getValue`
calls driven by a non-decreasing tick source and applied to an encoder whose
`lastPulse` is not above the first tick (the constructed encoder, where it is
0, is one), every call other than a `reset` leaves `lastPulse` at least as
large as it was before that call; a `reset` sets `lastPulse` to 0. -/
theorem lastPulse_nondecreasing_except_reset (e : Encoder) (pre : List Call) (c : Call)
    (post : List Call)
    (hticks : (e.lastPulse :: ticks (pre ++ c :: post)).Pairwise (fun x y => x ≤ y))
    (hc : c ≠ Call.reset) :
    (e.run pre).lastPulse ≤ ((e.run pre).step c).lastPulse ∧
    ((e.run pre).step Call.reset).lastPulse = 0 := by
  refine ⟨?_, rfl⟩
  cases c with
  | handlePulseA p =>
    simp only [Encoder.step, Encoder.handlePulseA_lastPulse]
    rw [ticks_append] at hticks
    simp only [ticks] at hticks
    rw [List.pairwise_cons, List.pairwise_append] at hticks
    obtain ⟨hfirst, _, _, hcross⟩ := hticks
    rcases Encoder.run_lastPulse_cases pre e with h | h | h
    · rw [h]
      exact hfirst _ (by simp)
    · rw [h]
      exact Nat.zero_le _
    · exact hcross _ h _ (by simp)
  | reset => exact absurd rfl hc
  | getValue m => exact le_refl _

/-- C10 (amended), at the constructed encoder, an edge at tick 5, and a second
edge at tick 8 followed by a reset. -/
theorem lastPulse_nondecreasing_except_reset_witness :
    ((Encoder.new 2 3).lastPulse ::
      ticks ([Call.handlePulseA (pinsHigh 5)] ++ Call.handlePulseA (pinsLow 8) ::
        [Call.reset])).Pairwise (fun x y => x ≤ y) ∧
    Call.handlePulseA (pinsLow 8) ≠ Call.reset ∧
    (((Encoder.new 2 3).run [Call.handlePulseA (pinsHigh 5)]).lastPulse ≤
      (((Encoder.new 2 3).run [Call.handlePulseA (pinsHigh 5)]).step
        (Call.handlePulseA (pinsLow 8))).lastPulse ∧
    (((Encoder.new 2 3).run [Call.handlePulseA (pinsHigh 5)]).step Call.reset).lastPulse = 0) :=
  ⟨by simp [ticks, Encoder.new, pinsHigh, pinsLow], by simp,
    lastPulse_nondecreasing_except_reset (Encoder.new 2 3) [Call.handlePulseA (pinsHigh 5)]
      (Call.handlePulseA (pinsLow 8)) [Call.reset]
      (by simp [ticks, Encoder.new, pinsHigh, pinsLow]) (by simp)⟩

/-! ## DisplayController: the rendered frame -/

/-- C5 (as stated, refuted): on a panel whose identifier is the NUL character
the buffer starts with the terminator, so the device is handed the empty text
and not the 8 characters identifier, mode character, field. -/
theorem renderValue_nul_panel_sends_empty_text :
    (panelNul.renderValue 123 0).tm.log = [DeviceOp.displayText []] ∧
    ¬ ((panelNul.renderValue 123 0).tm.log =
      panelNul.tm.log ++ [DeviceOp.displayText (panelNul.idChar :: 'd' :: specField 123)]) := by
  decide

/-- C5 (amended): for every panel identifier other than NUL, every mode in
0, 1, 2 and every value from -99999 to 999999, `renderValue` hands the device
exactly one text, of 8 characters: the identifier, the mode character of the
mode, and the 6-character field of the specification (digits left-padded with
`0` to 6, or `-` and digits left-padded to 5); the identifier is unchanged. -/
theorem renderValue_in_range (d : DisplayController) (v m : Int) (hid : d.idChar ≠ NUL)
    (hm : m = 0 ∨ m = 1 ∨ m = 2) (hlo : -99999 ≤ v) (hhi : v ≤ 999999) :
    ∃ mc : Char, specModeChar m = some mc ∧
      (d.renderValue v m).tm.log =
        d.tm.log ++ [DeviceOp.displayText (d.idChar :: mc :: specField v)] ∧
      (d.idChar :: mc :: specField v).length = 8 ∧
      (d.renderValue v m).idChar = d.idChar := by
  obtain ⟨hfmt, hlen⟩ := fmt06ld_eq_specField v hlo hhi
  refine ⟨DisplayController.modeChar m, ?_, ?_, ?_, rfl⟩
  · rcases hm with h | h | h <;> rw [h] <;> decide
  · rw [renderValue_log d v m hid]
    have h8 : (fmtFrame d.idChar (DisplayController.modeChar m) v).length ≤ 8 := by
      simp only [fmtFrame, List.length_cons, hfmt, hlen]
      omega
    rw [List.take_of_length_le h8]
    simp only [fmtFrame, hfmt]
  · simp only [List.length_cons, hlen]

/-- C5 (amended), at panel `L`, value 123 and mode 0; and the three frames
the specification lists, `Ld000123`, `rf-00005` and `rb000007`. -/
theorem renderValue_in_range_witness :
    (panelL.idChar ≠ NUL ∧ ((0 : Int) = 0 ∨ (0 : Int) = 1 ∨ (0 : Int) = 2) ∧
      (-99999 : Int) ≤ 123 ∧ (123 : Int) ≤ 999999) ∧
    (∃ mc : Char, specModeChar 0 = some mc ∧
      (panelL.renderValue 123 0).tm.log =
        panelL.tm.log ++ [DeviceOp.displayText (panelL.idChar :: mc :: specField 123)] ∧
      (panelL.idChar :: mc :: specField 123).length = 8 ∧
      (panelL.renderValue 123 0).idChar = panelL.idChar) ∧
    (panelL.renderValue 123 0).lastText = some ['L', 'd', '0', '0', '0', '1', '2', '3'] ∧
    (panelR.renderValue (-5) 1).lastText = some ['r', 'f', '-', '0', '0', '0', '0', '5'] ∧
    (panelR.renderValue 7 2).lastText = some ['r', 'b', '0', '0', '0', '0', '0', '7'] :=
  ⟨by decide,
    renderValue_in_range panelL 123 0 (by decide) (by decide) (by decide) (by decide),
    by decide, by decide, by decide⟩

/-- C6 (as stated, refuted): on a panel whose identifier is the NUL character
the device is handed the empty text, which has no second character: for value
5 and mode 0 no text with `d` in second place is sent. -/
theorem renderValue_nul_panel_no_mode_character :
    (panelNul.renderValue 5 0).tm.log = panelNul.tm.log ++ [DeviceOp.displayText []] ∧
    ¬ (∃ t : List Char,
      (panelNul.renderValue 5 0).tm.log = panelNul.tm.log ++ [DeviceOp.displayText t] ∧
      t[1]? = some (if (0 : Int) = 0 then 'd' else if (0 : Int) = 1 then 'f' else 'b')) := by
  have hlog : (panelNul.renderValue 5 0).tm.log =
      panelNul.tm.log ++ [DeviceOp.displayText []] := by decide
  refine ⟨hlog, ?_⟩
  rintro ⟨t, ht, h1⟩
  rw [hlog] at ht
  have hnil : t = [] := by
    have h := List.append_cancel_left ht
    simp only [List.cons.injEq, DeviceOp.displayText.injEq, and_true] at h
    exact h.symm
  rw [hnil] at h1
  simp at h1

/-- C6 (amended): for every panel identifier other than NUL, every value and
every integer mode, `renderValue` hands the device exactly one text, and its
second character is `d` for mode 0, `f` for mode 1 and `b` for every other
mode (2, 9, negative ones). -/
theorem renderValue_mode_character (d : DisplayController) (v m : Int)
    (hid : d.idChar ≠ NUL) :
    ∃ t : List Char,
      (d.renderValue v m).tm.log = d.tm.log ++ [DeviceOp.displayText t] ∧
      t[1]? = some (if m = 0 then 'd' else if m = 1 then 'f' else 'b') := by
  refine ⟨_, renderValue_log d v m hid, ?_⟩
  simp [fmtFrame, DisplayController.modeChar]

/-- C6 (amended), at panel `L`, the largest `long` and the unknown mode 9. -/
theorem renderValue_mode_character_witness :
    panelL.idChar ≠ NUL ∧
    (∃ t : List Char,
      (panelL.renderValue 2147483647 9).tm.log = panelL.tm.log ++ [DeviceOp.displayText t] ∧
      t[1]? = some (if (9 : Int) = 0 then 'd' else if (9 : Int) = 1 then 'f' else 'b')) ∧
    (panelL.renderValue 2147483647 9).lastText = some ['L', 'b', '2', '1', '4', '7', '4', '8'] ∧
    (panelL.renderValue 0 (-3)).lastText = some ['L', 'b', '0', '0', '0', '0', '0', '0'] ∧
    (panelL.renderValue 0 1).lastText = some ['L', 'f', '0', '0', '0', '0', '0', '0'] :=
  ⟨by decide, renderValue_mode_character panelL 2147483647 9 (by decide), by decide,
    by decide, by decide⟩

/-- C7: for every panel identifier other than NUL, every integer mode and
every value (those of magnitude 10^6 and more and the most negative `long`
included) the text `renderValue` hands the device is exactly 8 characters
long, and the buffer holds these and the terminator, 9 bytes. -/
theorem renderValue_frame_length (d : DisplayController) (v m : Int) (hid : d.idChar ≠ NUL) :
    (d.renderBuf v m).length = 9 ∧
    ∃ t : List Char, (d.renderValue v m).tm.log = d.tm.log ++ [DeviceOp.displayText t] ∧
      t.length = 8 := by
  constructor
  · rw [renderBuf_eq, List.length_append, fmtFrame_take_length]
    rfl
  · exact ⟨_, renderValue_log d v m hid, fmtFrame_take_length _ _ v⟩

/-- C7, at panel `r`, the most negative `long` and mode 1. -/
theorem renderValue_frame_length_witness :
    panelR.idChar ≠ NUL ∧
    ((panelR.renderBuf (-2147483648) 1).length = 9 ∧
      ∃ t : List Char, (panelR.renderValue (-2147483648) 1).tm.log =
        panelR.tm.log ++ [DeviceOp.displayText t] ∧ t.length = 8) ∧
    (panelR.renderValue (-2147483648) 1).lastText =
      some ['r', 'f', '-', '2', '1', '4', '7', '4'] :=
  ⟨by decide, renderValue_frame_length panelR (-2147483648) 1 (by decide), by decide⟩

/-! ## Encoder: direction and frame of the members -/

/-- C11: an edge never leaves the direction at Idle: after `handlePulseA`,
in every state and for every level of pin B, `dir` is +1 or -1 and so not 0;
after `reset()` `dir` is 0 in every state; `getValue` leaves the whole object,
`dir` included, as it was. -/
theorem dir_transitions (e : Encoder) (p : Platform) (mode : Int) :
    ((e.handlePulseA p).dir = 1 ∨ (e.handlePulseA p).dir = -1) ∧
    (e.handlePulseA p).dir ≠ 0 ∧
    (e.reset).dir = 0 ∧
    e.step (Call.getValue mode) = e := by
  have h : (e.handlePulseA p).dir = 1 ∨ (e.handlePulseA p).dir = -1 := by
    unfold Encoder.handlePulseA
    split
    · exact Or.inl rfl
    · exact Or.inr rfl
  refine ⟨h, ?_, rfl, rfl⟩
  rcases h with h | h <;> rw [h] <;> decide

/-- C16: `handlePulseA` leaves `lastPulse` at the tick `millis()` returned at
the call, whatever pin B read, and leaves `pinA` and `pinB` unchanged;
`reset()` leaves `pinA` and `pinB` unchanged as well. -/
theorem handlePulseA_frame (e : Encoder) (p : Platform) :
    (e.handlePulseA p).lastPulse = p.millis ∧
    (e.handlePulseA p).pinA = e.pinA ∧ (e.handlePulseA p).pinB = e.pinB ∧
    (e.reset).pinA = e.pinA ∧ (e.reset).pinB = e.pinB := by
  refine ⟨rfl, ?_, Encoder.handlePulseA_pinB e p, rfl, rfl⟩
  unfold Encoder.handlePulseA
  split <;> rfl

/-! ## DisplayController: delegation to the device -/

/-- C12: `readButtons()` returns the bitmask the device reports, unmodified;
the only device operation it issues is that one read (no text, no reset, no
brightness), and `idChar` is unchanged. -/
theorem readButtons_proxy (d : DisplayController) (m : Nat) (hm : d.tm.buttons = m) :
    (d.readButtons).1 = m ∧
    (d.readButtons).2.tm.log = d.tm.log ++ [DeviceOp.readButtons] ∧
    (d.readButtons).2.tm.buttons = m ∧
    (d.readButtons).2.idChar = d.idChar := by
  subst hm
  exact ⟨rfl, rfl, rfl, rfl⟩

/-- C12, at panel `L` after `begin()` with the device reporting 255. -/
theorem readButtons_proxy_witness :
    panelPressed.tm.buttons = 255 ∧
    ((panelPressed.readButtons).1 = 255 ∧
      (panelPressed.readButtons).2.tm.log = panelPressed.tm.log ++ [DeviceOp.readButtons] ∧
      (panelPressed.readButtons).2.tm.buttons = 255 ∧
      (panelPressed.readButtons).2.idChar = panelPressed.idChar) ∧
    (panelPressed.readButtons).2.tm.log =
      [DeviceOp.displayBegin, DeviceOp.reset, DeviceOp.brightness 2, DeviceOp.readButtons] :=
  ⟨by decide, readButtons_proxy panelPressed 255 (by decide), by decide⟩

/-- C15: `begin()` issues exactly three device operations, in this order:
`displayBegin`, `reset`, `brightness` with the level 2, which lies in 0..7; it
sends no text and leaves `idChar` unchanged.  `DisplayController::reset()`
issues exactly one device `reset`. -/
theorem begin_operations (d : DisplayController) :
    (∃ level : Nat, (d.begin).tm.log = d.tm.log ++
        [DeviceOp.displayBegin, DeviceOp.reset, DeviceOp.brightness level] ∧
      level = 2 ∧ level ≤ 7) ∧
    (∀ t : List Char, DeviceOp.displayText t ∉ (d.begin).tm.log.drop d.tm.log.length) ∧
    (d.begin).idChar = d.idChar ∧
    (d.reset).tm.log = d.tm.log ++ [DeviceOp.reset] ∧
    (d.reset).idChar = d.idChar := by
  have hlog : (d.begin).tm.log = d.tm.log ++
      [DeviceOp.displayBegin, DeviceOp.reset, DeviceOp.brightness 2] := by
    simp [DisplayController.begin, TM1638plus.displayBegin, TM1638plus.reset,
      TM1638plus.brightness, TM1638plus.record]
  refine ⟨⟨2, hlog, rfl, by decide⟩, ?_, rfl, rfl, rfl⟩
  intro t
  rw [hlog, List.drop_left]
  simp

/-! ## Encoder: what a run of edges adds up to -/

/-- C17: in every state reached from the constructed encoder by a sequence of
calls with fewer than 2^31 `handlePulseA` calls in it (and any number of
`reset` and `getValue` calls), `dir` is -1, 0 or +1; `dir` is 0 exactly when
`forward` and `backward` are both 0; `dir` = +1 implies `forward` >= 1 and
`dir` = -1 implies `backward` >= 1. -/
theorem dir_agrees_with_counters (a b : Int) (cs : List Call)
    (hn : pulseCount cs < 2147483648) :
    (((Encoder.new a b).run cs).dir = -1 ∨ ((Encoder.new a b).run cs).dir = 0 ∨
      ((Encoder.new a b).run cs).dir = 1) ∧
    (((Encoder.new a b).run cs).dir = 0 ↔
      ((Encoder.new a b).run cs).forward = 0 ∧ ((Encoder.new a b).run cs).backward = 0) ∧
    (((Encoder.new a b).run cs).dir = 1 → 1 ≤ ((Encoder.new a b).run cs).forward) ∧
    (((Encoder.new a b).run cs).dir = -1 → 1 ≤ ((Encoder.new a b).run cs).backward) := by
  have hinit : (Encoder.new a b).Consistent := by
    simp [Encoder.Consistent, Encoder.new]
  exact Encoder.run_consistent cs (Encoder.new a b) 0 (le_refl _) (le_refl _)
    (by simp [Encoder.new]) hinit (by omega)

/-- C17, at a forward edge, a reset and two backward edges. -/
theorem dir_agrees_with_counters_witness :
    pulseCount [Call.handlePulseA (pinsHigh 3), Call.reset, Call.handlePulseA (pinsLow 4),
      Call.handlePulseA (pinsLow 6)] < 2147483648 ∧
    ((((Encoder.new 2 3).run [Call.handlePulseA (pinsHigh 3), Call.reset,
        Call.handlePulseA (pinsLow 4), Call.handlePulseA (pinsLow 6)]).dir = -1 ∨
      ((Encoder.new 2 3).run [Call.handlePulseA (pinsHigh 3), Call.reset,
        Call.handlePulseA (pinsLow 4), Call.handlePulseA (pinsLow 6)]).dir = 0 ∨
      ((Encoder.new 2 3).run [Call.handlePulseA (pinsHigh 3), Call.reset,
        Call.handlePulseA (pinsLow 4), Call.handlePulseA (pinsLow 6)]).dir = 1) ∧
    (((Encoder.new 2 3).run [Call.handlePulseA (pinsHigh 3), Call.reset,
        Call.handlePulseA (pinsLow 4), Call.handlePulseA (pinsLow 6)]).dir = 0 ↔
      ((Encoder.new 2 3).run [Call.handlePulseA (pinsHigh 3), Call.reset,
        Call.handlePulseA (pinsLow 4), Call.handlePulseA (pinsLow 6)]).forward = 0 ∧
      ((Encoder.new 2 3).run [Call.handlePulseA (pinsHigh 3), Call.reset,
        Call.handlePulseA (pinsLow 4), Call.handlePulseA (pinsLow 6)]).backward = 0) ∧
    (((Encoder.new 2 3).run [Call.handlePulseA (pinsHigh 3), Call.reset,
        Call.handlePulseA (pinsLow 4), Call.handlePulseA (pinsLow 6)]).dir = 1 →
      1 ≤ ((Encoder.new 2 3).run [Call.handlePulseA (pinsHigh 3), Call.reset,
        Call.handlePulseA (pinsLow 4), Call.handlePulseA (pinsLow 6)]).forward) ∧
    (((Encoder.new 2 3).run [Call.handlePulseA (pinsHigh 3), Call.reset,
        Call.handlePulseA (pinsLow 4), Call.handlePulseA (pinsLow 6)]).dir = -1 →
      1 ≤ ((Encoder.new 2 3).run [Call.handlePulseA (pinsHigh 3), Call.reset,
        Call.handlePulseA (pinsLow 4), Call.handlePulseA (pinsLow 6)]).backward)) ∧
    ((Encoder.new 2 3).run [Call.handlePulseA (pinsHigh 3), Call.reset,
      Call.handlePulseA (pinsLow 4), Call.handlePulseA (pinsLow 6)]).dir = -1 ∧
    ((Encoder.new 2 3).run [Call.handlePulseA (pinsHigh 3), Call.reset,
      Call.handlePulseA (pinsLow 4), Call.handlePulseA (pinsLow 6)]).backward = 2 :=
  ⟨by decide,
    dir_agrees_with_counters 2 3 [Call.handlePulseA (pinsHigh 3), Call.reset,
      Call.handlePulseA (pinsLow 4), Call.handlePulseA (pinsLow 6)] (by decide),
    by decide, by decide⟩

/-- C18: starting from a state with `forward` = `backward` = 0, after a
sequence of n `handlePulseA` calls, n < 2^31, of which h saw pin B at `HIGH`:
`forward` is h and `backward` is n - h, so `getValue(1) + getValue(2)` is n
and `getValue(0)` is 2h - n. -/
theorem every_edge_counted_once (e : Encoder) (ps : List Platform)
    (hf : e.forward = 0) (hb : e.backward = 0) (hn : ps.length < 2147483648) :
    (e.pulses ps).forward = (highCount e.pinB ps : Int) ∧
    (e.pulses ps).backward = (ps.length : Int) - (highCount e.pinB ps : Int) ∧
    (e.pulses ps).getValue 1 + (e.pulses ps).getValue 2 = (ps.length : Int) ∧
    (e.pulses ps).getValue 0 = 2 * (highCount e.pinB ps : Int) - (ps.length : Int) := by
  have hle := highCount_le_length e.pinB ps
  obtain ⟨h1, h2⟩ := Encoder.pulses_counts ps e (by omega) (by omega) (by omega)
  rw [hf, zero_add] at h1
  rw [hb, zero_add] at h2
  have hg1 : (e.pulses ps).getValue 1 = (e.pulses ps).forward := by simp [Encoder.getValue]
  have hg2 : (e.pulses ps).getValue 2 = (e.pulses ps).backward := by simp [Encoder.getValue]
  have hg0 : (e.pulses ps).getValue 0 =
      wrapLong ((e.pulses ps).forward - (e.pulses ps).backward) := by
    simp [Encoder.getValue]
  refine ⟨h1, h2, ?_, ?_⟩
  · rw [hg1, hg2, h1, h2]
    omega
  · rw [hg0, h1, h2, wrapLong_of_range _ (by unfold LONG_MIN; omega)
      (by unfold LONG_MAX; omega)]
    omega

/-- C18, at the constructed encoder and the edges HIGH, 0, HIGH: n = 3 and
h = 2. -/
theorem every_edge_counted_once_witness :
    ((Encoder.new 2 3).forward = 0 ∧ (Encoder.new 2 3).backward = 0 ∧
      [pinsHigh 1, pinsLow 2, pinsHigh 3].length < 2147483648) ∧
    (((Encoder.new 2 3).pulses [pinsHigh 1, pinsLow 2, pinsHigh 3]).forward =
        (highCount (Encoder.new 2 3).pinB [pinsHigh 1, pinsLow 2, pinsHigh 3] : Int) ∧
      ((Encoder.new 2 3).pulses [pinsHigh 1, pinsLow 2, pinsHigh 3]).backward =
        ([pinsHigh 1, pinsLow 2, pinsHigh 3].length : Int) -
          (highCount (Encoder.new 2 3).pinB [pinsHigh 1, pinsLow 2, pinsHigh 3] : Int) ∧
      ((Encoder.new 2 3).pulses [pinsHigh 1, pinsLow 2, pinsHigh 3]).getValue 1 +
        ((Encoder.new 2 3).pulses [pinsHigh 1, pinsLow 2, pinsHigh 3]).getValue 2 =
        ([pinsHigh 1, pinsLow 2, pinsHigh 3].length : Int) ∧
      ((Encoder.new 2 3).pulses [pinsHigh 1, pinsLow 2, pinsHigh 3]).getValue 0 =
        2 * (highCount (Encoder.new 2 3).pinB [pinsHigh 1, pinsLow 2, pinsHigh 3] : Int) -
          ([pinsHigh 1, pinsLow 2, pinsHigh 3].length : Int)) ∧
    highCount (Encoder.new 2 3).pinB [pinsHigh 1, pinsLow 2, pinsHigh 3] = 2 ∧
    ((Encoder.new 2 3).pulses [pinsHigh 1, pinsLow 2, pinsHigh 3]).getValue 0 = 1 :=
  ⟨by decide,
    every_edge_counted_once (Encoder.new 2 3) [pinsHigh 1, pinsLow 2, pinsHigh 3] rfl rfl
      (by decide),
    by decide, by decide⟩

/-! ## DisplayController: values wider than the field -/

/-- C14: for every panel identifier other than NUL, every mode and every value
v with v >= 10^6 or v <= -10^5, the text the device is handed is the first 8
characters of identifier, mode character and the plain signed decimal of v, so
the characters dropped are the low-order digits; at the boundary values 999999
and -99999 the text is identifier, mode character and the whole signed
decimal, 8 characters, and nothing is dropped. -/
theorem renderValue_truncates_low_digits (d : DisplayController) (v m : Int)
    (hid : d.idChar ≠ NUL) :
    ((1000000 ≤ v ∨ v ≤ -100000) →
      (d.renderValue v m).tm.log = d.tm.log ++ [DeviceOp.displayText
        ((d.idChar :: DisplayController.modeChar m :: signedDecimal v).take 8)] ∧
      8 < (d.idChar :: DisplayController.modeChar m :: signedDecimal v).length) ∧
    ((v = 999999 ∨ v = -99999) →
      (d.renderValue v m).tm.log = d.tm.log ++ [DeviceOp.displayText
        (d.idChar :: DisplayController.modeChar m :: signedDecimal v)] ∧
      (d.idChar :: DisplayController.modeChar m :: signedDecimal v).length = 8) := by
  constructor
  · intro hv
    have hfmt := fmt06ld_overflow v hv
    refine ⟨?_, ?_⟩
    · rw [renderValue_log d v m hid]
      simp only [fmtFrame, hfmt]
    · simp only [List.length_cons, signedDecimal, List.length_append]
      rcases hv with hv | hv
      · have hlen := toDigits_length_ge v.natAbs 6 (by norm_num; omega)
        omega
      · have hlen := toDigits_length_ge v.natAbs 5 (by norm_num; omega)
        have hneg : v < 0 := by omega
        rw [if_pos hneg]
        simp only [List.length_singleton]
        omega
  · intro hv
    have hfmt : fmt06ld v = signedDecimal v ∧ (signedDecimal v).length = 6 := by
      rcases hv with hv | hv <;> rw [hv] <;> decide
    refine ⟨?_, ?_⟩
    · rw [renderValue_log d v m hid]
      have h8 : (fmtFrame d.idChar (DisplayController.modeChar m) v).length ≤ 8 := by
        simp only [fmtFrame, List.length_cons, hfmt.1, hfmt.2]
        omega
      rw [List.take_of_length_le h8]
      simp only [fmtFrame, hfmt.1]
    · simp only [List.length_cons, hfmt.2]

/-- C14, on panel `L` in mode 0: 1000000 is sent as `Ld100000`, the frame of
100000; -100000 as `Ld-10000`; 999999 and -99999 are sent whole. -/
theorem renderValue_truncates_low_digits_witness :
    panelL.idChar ≠ NUL ∧
    ((panelL.renderValue 1000000 0).tm.log = panelL.tm.log ++ [DeviceOp.displayText
        ((panelL.idChar :: DisplayController.modeChar 0 :: signedDecimal 1000000).take 8)] ∧
      8 < (panelL.idChar :: DisplayController.modeChar 0 :: signedDecimal 1000000).length) ∧
    ((panelL.renderValue 999999 0).tm.log = panelL.tm.log ++ [DeviceOp.displayText
        (panelL.idChar :: DisplayController.modeChar 0 :: signedDecimal 999999)] ∧
      (panelL.idChar :: DisplayController.modeChar 0 :: signedDecimal 999999).length = 8) ∧
    (panelL.renderValue 1000000 0).lastText = some ['L', 'd', '1', '0', '0', '0', '0', '0'] ∧
    (panelL.renderValue 100000 0).lastText = some ['L', 'd', '1', '0', '0', '0', '0', '0'] ∧
    (panelL.renderValue (-100000) 0).lastText = some ['L', 'd', '-', '1', '0', '0', '0', '0'] ∧
    (panelL.renderValue 999999 0).lastText = some ['L', 'd', '9', '9', '9', '9', '9', '9'] ∧
    (panelL.renderValue (-99999) 0).lastText = some ['L', 'd', '-', '9', '9', '9', '9', '9'] :=
  ⟨by decide,
    (renderValue_truncates_low_digits panelL 1000000 0 (by decide)).1 (by decide),
    (renderValue_truncates_low_digits panelL 999999 0 (by decide)).2 (by decide),
    by decide, by decide, by decide, by decide, by decide⟩

/-! ## DisplayController: the frame determines what was rendered -/

/-- C19 (as stated, refuted): on a panel whose identifier is the NUL character
every frame is the empty text, so value 1 in mode 0 and value 2 in mode 1,
both in range, send the same frame although modes and values differ. -/
theorem renderValue_nul_panel_ambiguous :
    (panelNul.renderValue 1 0).lastText = (panelNul.renderValue 2 1).lastText ∧
    (panelNul.renderValue 1 0).lastText = some [] ∧
    ¬ (panelNul.idChar = panelNul.idChar ∧ (0 : Int) = 1 ∧ (1 : Int) = 2) := by
  decide

/-- C19 (amended): for panel identifiers other than NUL, modes in 0, 1, 2 and
values from -99999 to 999999, reading the characters 3 to 8 of the frame as a
signed decimal gives the rendered value back, and two renderings that send the
same frame have the same identifier, the same mode and the same value. -/
theorem renderValue_unambiguous (d1 d2 : DisplayController) (v1 v2 m1 m2 : Int)
    (hid1 : d1.idChar ≠ NUL) (hid2 : d2.idChar ≠ NUL)
    (hm1 : m1 = 0 ∨ m1 = 1 ∨ m1 = 2) (hm2 : m2 = 0 ∨ m2 = 1 ∨ m2 = 2)
    (h1lo : -99999 ≤ v1) (h1hi : v1 ≤ 999999) (h2lo : -99999 ≤ v2) (h2hi : v2 ≤ 999999) :
    (∃ t : List Char, (d1.renderValue v1 m1).lastText = some t ∧
      readSignedDecimal (t.drop 2) = v1) ∧
    ((d1.renderValue v1 m1).lastText = (d2.renderValue v2 m2).lastText →
      d1.idChar = d2.idChar ∧ m1 = m2 ∧ v1 = v2) := by
  have hframe : ∀ (d : DisplayController) (v m : Int), d.idChar ≠ NUL → -99999 ≤ v →
      v ≤ 999999 → (d.renderValue v m).lastText =
        some (d.idChar :: DisplayController.modeChar m :: fmt06ld v) := by
    intro d v m hid hlo hhi
    obtain ⟨hfmt, hlen⟩ := fmt06ld_eq_specField v hlo hhi
    rw [renderValue_lastText d v m hid]
    have h8 : (fmtFrame d.idChar (DisplayController.modeChar m) v).length ≤ 8 := by
      simp only [fmtFrame, List.length_cons, hfmt, hlen]
      omega
    rw [List.take_of_length_le h8]
    rfl
  constructor
  · refine ⟨_, hframe d1 v1 m1 hid1 h1lo h1hi, ?_⟩
    simp only [List.drop_succ_cons, List.drop_zero]
    exact readSignedDecimal_fmt06ld v1
  · intro hsame
    rw [hframe d1 v1 m1 hid1 h1lo h1hi, hframe d2 v2 m2 hid2 h2lo h2hi] at hsame
    simp only [Option.some.injEq, List.cons.injEq] at hsame
    obtain ⟨hc, hm, hv⟩ := hsame
    refine ⟨hc, modeChar_injective m1 m2 hm1 hm2 hm, ?_⟩
    rw [← readSignedDecimal_fmt06ld v1, ← readSignedDecimal_fmt06ld v2, hv]

/-- C19 (amended), at panel `L`, value -5, mode 1, compared with itself. -/
theorem renderValue_unambiguous_witness :
    (panelL.idChar ≠ NUL ∧ ((1 : Int) = 0 ∨ (1 : Int) = 1 ∨ (1 : Int) = 2) ∧
      (-99999 : Int) ≤ -5 ∧ (-5 : Int) ≤ 999999) ∧
    (∃ t : List Char, (panelL.renderValue (-5) 1).lastText = some t ∧
      readSignedDecimal (t.drop 2) = -5) ∧
    ((panelL.renderValue (-5) 1).lastText = (panelL.renderValue (-5) 1).lastText →
      panelL.idChar = panelL.idChar ∧ (1 : Int) = 1 ∧ (-5 : Int) = -5) ∧
    readSignedDecimal ['-', '0', '0', '0', '0', '5'] = -5 :=
  ⟨by decide,
    (renderValue_unambiguous panelL panelL (-5) (-5) 1 1 (by decide) (by decide)
      (by decide) (by decide) (by decide) (by decide) (by decide) (by decide)).1,
    (renderValue_unambiguous panelL panelL (-5) (-5) 1 1 (by decide) (by decide)
      (by decide) (by decide) (by decide) (by decide) (by decide) (by decide)).2,
    by decide⟩

end ArduinoEncoder
